import Mathlib

/-
  Formal model of the dialect-detecting CSV loader of `src/app.py`
  (constants `REQUIRED` and `ALIASES`, helper `_normalize_cols`, and the
  function `load_data`), together with spec-side definitions used to compare
  the code against the natural-language specification.

  Modelling conventions:
  * A pandas cell is `Cell`: `na` models NaN (missing), `str` a string cell,
    `num` a numeric cell.  `pd.read_csv` cells are modelled as the raw field
    text (empty field ↦ `na`); pandas dtype inference and its extra NA
    sentinels ("NA", "null", ...) are not modelled, and none of the inputs
    used below exercise them.
  * Numeric values are modelled as exact rationals; float64 rounding is not
    at issue in any claim.
  * A file is modelled by what each candidate text codec decodes it to
    (`File.decoded`); `none` models a decode error (`UnicodeDecodeError`).
  * `read_csv` models `pd.read_csv(..., sep=sep, engine='python',
    on_bad_lines='skip')` on quote-free content: lines split on `'\n'`
    (blank lines skipped, as with `skip_blank_lines=True`), fields split on
    the single-character separator, rows with more fields than the header
    skipped (`on_bad_lines='skip'`), rows with fewer fields padded with NaN.
    Quoting, duplicate-raw-header mangling and implicit-index inference are
    not modelled; every concrete input below is free of them.
-/

namespace SupermarketLoader

/-- A cell of a parsed table: missing (NaN), a string, or a number. -/
inductive Cell where
  | na : Cell
  | str : String → Cell
  | num : ℚ → Cell
deriving DecidableEq, Repr

/-- A named column of a table. -/
structure Column where
  name : String
  cells : List Cell
deriving DecidableEq, Repr

/-- A table is an ordered list of named columns (a pandas DataFrame). -/
abbrev Table := List Column

/-! ### Python string primitives used by the loader -/

/-- Python `str.strip()` on a character list: drop whitespace from both
ends.  (Python also strips a few exotic Unicode spaces; no input here
contains them.) -/
def stripChars (l : List Char) : List Char :=
  ((l.dropWhile Char.isWhitespace).reverse.dropWhile Char.isWhitespace).reverse

/-- Python `str.strip()`. -/
def pyStrip (s : String) : String :=
  String.mk (stripChars s.toList)

/-- Python `str.lower()`, restricted to the ASCII case mapping.  (Python
lowercases all of Unicode; every uppercase character appearing in the alias
keys and in the inputs below is ASCII, and the accented alias characters are
already lowercase.) -/
def pyLower (s : String) : String :=
  String.mk (s.toList.map Char.toLower)

/-! ### `REQUIRED`, `ALIASES` and `_normalize_cols` (src/app.py lines 15-33) -/

/-- `REQUIRED` from src/app.py line 15. -/
def REQUIRED : List String :=
  ["sales", "profit", "quantity", "category", "discount", "region"]

/-- `ALIASES` from src/app.py lines 16-23, in source order. -/
def ALIASES : List (String × String) :=
  [("vendas", "sales"), ("sales", "sales"),
   ("lucro", "profit"), ("profit", "profit"),
   ("quantidade", "quantity"), ("quantity", "quantity"),
   ("categoria", "category"), ("category", "category"),
   ("desconto", "discount"), ("discount", "discount"),
   ("regiao", "region"), ("região", "region"), ("region", "region")]

/-- Normalization of one header, mirroring the `_normalize_cols` chain
(src/app.py lines 25-33): `.str.strip()`, `.str.lower()`, removal of every
U+FEFF byte-order-mark character, and `.str.replace(" ", "_",
regex=False)`, applied in that order. -/
def normalizeHeader (s : String) : String :=
  String.mk
    ((((stripChars s.toList).map Char.toLower).filter
        (fun c => c ≠ '\uFEFF')).map
      (fun c => if c = ' ' then '_' else c))

/-- `_normalize_cols` from src/app.py lines 25-33: elementwise header
normalization of the column index.  (The `.astype(str)` step is the
identity here because headers are modelled as strings.) -/
def _normalize_cols (cols : List String) : List String :=
  cols.map normalizeHeader

/-- The rename step applied to one (already normalized) header: the alias
target when the header is an `ALIASES` key, the header itself otherwise
(src/app.py lines 58-59). -/
def aliasResolve (nm : String) : String :=
  match List.lookup nm ALIASES with
  | some canon => canon
  | none => nm

/-- Normalization followed by alias lookup: how a raw header of the selected
parse resolves to a column name of the returned table. -/
def resolveHeader (h : String) : String :=
  aliasResolve (normalizeHeader h)

/-! ### Numeric coercion (`pd.to_numeric(..., errors="coerce")`) -/

/-- Value of a list of decimal digit characters. -/
def digitsVal (l : List Char) : ℕ :=
  l.foldl (fun acc c => 10 * acc + (c.toNat - 48)) 0

/-- Whether `l` is a nonempty list of decimal digits. -/
def isDigitList (l : List Char) : Bool :=
  !l.isEmpty && l.all Char.isDigit

/-- Unsigned mantissa of a Python-parseable decimal literal: `digits`,
`digits.digits`, `digits.` or `.digits`. -/
def parseUnsigned (l : List Char) : Option ℚ :=
  match l.splitOn '.' with
  | [intPart] =>
      if isDigitList intPart then some (digitsVal intPart : ℚ) else none
  | [intPart, fracPart] =>
      if (!intPart.isEmpty || !fracPart.isEmpty) && intPart.all Char.isDigit
          && fracPart.all Char.isDigit then
        some ((digitsVal intPart : ℚ) +
          (digitsVal fracPart : ℚ) / (10 : ℚ) ^ fracPart.length)
      else none
  | _ => none

/-- An optional leading sign around a core parser. -/
def parseSigned (core : List Char → Option ℚ) (l : List Char) : Option ℚ :=
  match l with
  | '+' :: rest => core rest
  | '-' :: rest => (core rest).map (fun q => -q)
  | _ => core l

/-- A signed decimal exponent. -/
def parseExp (l : List Char) : Option ℤ :=
  match l with
  | '+' :: rest => if isDigitList rest then some (digitsVal rest : ℤ) else none
  | '-' :: rest => if isDigitList rest then some (-(digitsVal rest : ℤ)) else none
  | _ => if isDigitList l then some (digitsVal l : ℤ) else none

/-- Parse a stripped character list as a Python float/int literal
(optionally with an `e`/`E` exponent). -/
def parseNumChars (l : List Char) : Option ℚ :=
  match l.splitOnP (fun c => c = 'e' || c = 'E') with
  | [m] => parseSigned parseUnsigned m
  | [m, e] =>
      match parseSigned parseUnsigned m, parseExp e with
      | some q, some k => some (q * (10 : ℚ) ^ k)
      | _, _ => none
  | _ => none

/-- The string parse underlying `pd.to_numeric(..., errors="coerce")`:
surrounding whitespace allowed, then a Python numeric literal; `none` when
the text is not numeric.  (Python's `inf`/`nan` words and digit
underscores are not modelled; no claim involves them.) -/
def parseNumStr (s : String) : Option ℚ :=
  parseNumChars (stripChars s.toList)

/-- `pd.to_numeric(cell, errors="coerce")` on one cell: missing stays
missing, parseable text becomes its number, unparseable text becomes
missing, numbers stay themselves.  Total by construction. -/
def coerceCell (c : Cell) : Cell :=
  match c with
  | .na => .na
  | .str s =>
      match parseNumStr s with
      | some q => .num q
      | none => .na
  | .num q => .num q

/-- `pd.to_numeric(series, errors="coerce")`: elementwise coercion. -/
def coerceColumn (cells : List Cell) : List Cell :=
  cells.map coerceCell

/-- The numeric reading of a cell: the number a numeric cell carries, the
parse of a string cell, nothing for a missing cell.  A cell is
"numeric" when this is `some`. -/
def cellNum (c : Cell) : Option ℚ :=
  match c with
  | .na => none
  | .str s => parseNumStr s
  | .num q => some q

/-- `series.astype(str).str.strip()` on one cell (src/app.py line 67):
`astype(str)` renders NaN as the literal string `"nan"`, then whitespace is
stripped.  (The `num` branch is unreachable from `load_data`: textual
columns are never numerically coerced; `toString` stands in for Python's
float rendering there.) -/
def astypeStrTrim (c : Cell) : Cell :=
  match c with
  | .na => .str "nan"
  | .str s => .str (pyStrip s)
  | .num q => .str (pyStrip (toString q))

/-- `series.astype(str).str.strip()` over a column. -/
def trimColumn (cells : List Cell) : List Cell :=
  cells.map astypeStrTrim

/-! ### `read_csv`: the per-trial parse -/

/-- One raw field: empty text is NaN, anything else is the text itself. -/
def parseField (l : List Char) : Cell :=
  if l.isEmpty then Cell.na else Cell.str (String.mk l)

/-- Model of `pd.read_csv(path, encoding=enc, sep=sep, engine='python',
on_bad_lines='skip')` applied to already-decoded content (see the header
comment for the modelled subset).  `none` models a raised parse error. -/
def read_csv (content : String) (sep : Char) : Option Table :=
  match (content.toList.splitOn '\n').filter (fun l => !l.isEmpty) with
  | [] => none
  | header :: body =>
      let names := (header.splitOn sep).map (fun f => String.mk f)
      let fieldRows :=
        (body.map (fun r => (r.splitOn sep).map parseField)).filter
          (fun r => decide (r.length ≤ names.length))
      some (names.mapIdx
        (fun j nm => { name := nm, cells := fieldRows.map (fun r => r.getD j Cell.na) }))

/-! ### The detection loop and `load_data` (src/app.py lines 35-69) -/

/-- The five codecs of `encodings_to_try` (src/app.py line 37). -/
inductive Encoding where
  | utf8 | utf8sig | latin1 | cp1252 | iso8859_1
deriving DecidableEq, Repr

/-- `encodings_to_try` in source order. -/
def encodings_to_try : List Encoding :=
  [.utf8, .utf8sig, .latin1, .cp1252, .iso8859_1]

/-- `seps_to_try` (src/app.py line 38) in source order. -/
def seps_to_try : List Char :=
  [',', ';', '\t', '|']

/-- An input file, modelled by what each candidate codec decodes it to;
`none` is a decode error. -/
structure File where
  decoded : Encoding → Option String

/-- A file whose bytes are plain ASCII: all five codecs agree on ASCII, so
every codec decodes it to the same text. -/
def asciiFile (s : String) : File :=
  ⟨fun _ => some s⟩

/-- `df_try.columns = _normalize_cols(df_try.columns)` (src/app.py line
46): the column index of an accepted trial, normalized. -/
def normTable (t : Table) : Table :=
  t.map (fun col => { name := normalizeHeader col.name, cells := col.cells })

/-- One iteration of the nested loop body (src/app.py lines 43-48): decode
and parse; a raised error (`none`) or a table of at most one column
eliminates the trial; on success the column index is normalized with
`_normalize_cols` and the trial's table is the candidate. -/
def tryPair (f : File) (enc : Encoding) (sep : Char) : Option Table :=
  match f.decoded enc with
  | none => none
  | some content =>
      match read_csv content sep with
      | none => none
      | some t =>
          if 1 < t.length then some (normTable t) else none

/-- The nested detection loop (src/app.py lines 40-52): encodings outer,
separators inner, `break` out of both loops at the first accepted trial.
`none` is `best_df is None`. -/
def detect (f : File) : Option (Encoding × Char × Table) :=
  encodings_to_try.findSome? (fun enc =>
    seps_to_try.findSome? (fun sep =>
      (tryPair f enc sep).map (fun t => (enc, sep, t))))

/-- Apply `f` to the column named `c` if present (src/app.py lines 61-67:
`if c in df.columns: df[c] = f(df[c])`).  When two or more columns carry
the name `c`, `df[c]` is a DataFrame and both `pd.to_numeric` and the
`.str` accessor raise; `none` models that unhandled exception. -/
def applyToColumn (t : Table) (c : String) (f : List Cell → List Cell) :
    Option Table :=
  match (t.filter (fun col => col.name = c)).length with
  | 0 => some t
  | 1 => some (t.map (fun col =>
      if col.name = c then { name := col.name, cells := f col.cells } else col))
  | _ => none

/-- The rename of src/app.py lines 58-59: every column whose (normalized)
name is an `ALIASES` key is relabelled to its canonical name; other columns
keep their names.  pandas `rename` does not deduplicate, so two columns may
end up with the same label. -/
def renameColumns (t : Table) : Table :=
  t.map (fun col => { name := aliasResolve col.name, cells := col.cells })

/-- The four numeric canonical fields coerced at src/app.py lines 61-63. -/
def numericCols : List String :=
  ["sales", "profit", "quantity", "discount"]

/-- The two textual canonical fields trimmed at src/app.py lines 65-67. -/
def textCols : List String :=
  ["region", "category"]

/-- src/app.py lines 58-67: rename, then numeric coercion of the four
numeric fields, then trimming of the two textual fields; `none` models the
unhandled exception raised when a processed name is carried by two or more
columns. -/
def postProcess (t : Table) : Option Table :=
  (numericCols.foldlM (fun acc c => applyToColumn acc c coerceColumn)
      (renameColumns t)).bind
    (fun t2 => textCols.foldlM (fun acc c => applyToColumn acc c trimColumn) t2)

/-- The observable outcome of `load_data`. -/
inductive LoadOutcome where
  /-- The parsed, normalized table is returned to the caller. -/
  | table : Table → LoadOutcome
  /-- `st.error(msg)` — a user-interface action — followed by `st.stop()`,
  which halts the script instead of returning to the caller
  (src/app.py lines 54-56). -/
  | errorStop : String → LoadOutcome
  /-- An unhandled Python exception escapes `load_data`. -/
  | exception : LoadOutcome
deriving DecidableEq, Repr

/-- The message of src/app.py line 55. -/
def errMsg : String :=
  "Erro ao ler o CSV. Por favor, verifique o formato do arquivo."

/-- `load_data` (src/app.py lines 35-69): run the detection loop; when no
trial is accepted, show a UI error and stop; otherwise rename, coerce and
trim the selected table and return it. -/
def load_data (f : File) : LoadOutcome :=
  match detect f with
  | none => .errorStop errMsg
  | some (_, _, best_df) =>
      match postProcess best_df with
      | some t => .table t
      | none => .exception

/-! ### Spec-side definitions (for refinement comparison only)

The definitions in this section follow the words of the specification
(§4.1), not the source; they exist to be compared with `detect` above. -/

/-- The 20 (encoding, separator) pairs in the fixed nested order: encodings
outer, separators inner. -/
def pairList : List (Encoding × Char) :=
  encodings_to_try.flatMap (fun enc => seps_to_try.map (fun sep => (enc, sep)))

/-- Modelled from the spec (§4.1 step 3): `required_hit` = the number of
canonical fields coverable either directly or via the alias table from the
normalized headers of a candidate table. -/
def requiredHit (t : Table) : ℕ :=
  (REQUIRED.filter (fun r => t.any (fun col => aliasResolve col.name = r))).length

/-- Modelled from the spec (§4.1 step 4): occurrences of the known
mojibake marker characters in the textual cells of the first 50 rows. -/
def mojibakeCount (t : Table) : ℕ :=
  (t.map (fun col =>
    ((col.cells.take 50).map (fun c =>
      match c with
      | .str s => (s.toList.filter
          (fun ch => ch = 'Ã' || ch = 'Â' || ch = '�')).length
      | _ => 0)).sum)).sum

/-- Modelled from the spec (§4.1 steps 4-5): a penalty of 1 when the marker
occurrences meet the threshold of 5, otherwise 0 (penalty capped at 1). -/
def mojibakePenalty (t : Table) : ℤ :=
  if 5 ≤ mojibakeCount t then 1 else 0

/-- Modelled from the spec (§4.1 step 5): `score = required_hit * W -
mojibake_penalty` with `W = 10`. -/
def specScore (t : Table) : ℤ :=
  (requiredHit t : ℤ) * 10 - mojibakePenalty t

/-- Modelled from the spec (§4.1): all surviving candidates, one per
(encoding, separator) pair that decodes, parses and yields a multi-column
table, in the fixed nested order. -/
def specCandidates (f : File) : List (Encoding × Char × Table) :=
  pairList.filterMap (fun p => (tryPair f p.1 p.2).map (fun t => (p.1, p.2, t)))

/-- Modelled from the spec (§4.1 step 6): the running best-scoring
candidate over all trials, keeping the earliest-encountered candidate on an
exact score tie. -/
def specDetect (f : File) : Option (Encoding × Char × Table) :=
  (specCandidates f).foldl
    (fun best c =>
      match best with
      | none => some c
      | some b => if specScore b.2.2 < specScore c.2.2 then some c else some b)
    none

/-! ### Serialization of a logical table (for the delimiter-robustness
claim) -/

/-- A logical table: an ordered header row and data rows of raw text
cells. -/
structure LTable where
  names : List String
  rows : List (List String)
deriving DecidableEq, Repr

/-- One serialized line: the fields joined by the delimiter. -/
def serializeLine (sep : Char) (fields : List String) : List Char :=
  [sep].intercalate (fields.map String.toList)

/-- A logical table serialized with the given delimiter: one line per row,
the header line first, lines joined by newlines, no quoting (every input
it is used with is delimiter-free). -/
def serialize (T : LTable) (sep : Char) : String :=
  String.mk (['\n'].intercalate ((T.names :: T.rows).map (serializeLine sep)))

/-- The characters a cell must avoid for unquoted serialization to be
faithful for every candidate delimiter: the four candidate separators,
line breaks, and the quote character. -/
abbrev cleanChar (c : Char) : Prop :=
  c ≠ ',' ∧ c ≠ ';' ∧ c ≠ '\t' ∧ c ≠ '|' ∧ c ≠ '\n' ∧ c ≠ '\r' ∧ c ≠ '"'

/-- A clean logical table: rectangular, at least two columns, and every
header and cell free of delimiter, line-break and quote characters. -/
abbrev LTable.Clean (T : LTable) : Prop :=
  2 ≤ T.names.length ∧
  (∀ r ∈ T.rows, r.length = T.names.length) ∧
  (∀ s ∈ T.names, ∀ c ∈ s.toList, cleanChar c) ∧
  (∀ r ∈ T.rows, ∀ s ∈ r, ∀ c ∈ s.toList, cleanChar c)

/-- The table that `read_csv` recovers from a faithful parse of `T`:
column `j` holds the cellified `j`-th field of every row. -/
def LTable.asTable (T : LTable) : Table :=
  T.names.mapIdx (fun j nm =>
    { name := nm,
      cells := T.rows.map (fun r => (r.map (fun s => parseField s.toList)).getD j Cell.na) })

/-! ### Helper lemmas -/

theorem mk_toList (s : String) : String.mk s.toList = s := by
  cases s
  rfl

theorem findSome?_decomp {α β : Type} (g : α → Option β) (l : List α) (b : β) :
    l.findSome? g = some b ↔
      ∃ l1 a l2, l = l1 ++ a :: l2 ∧ (∀ x ∈ l1, g x = none) ∧ g a = some b := by
  induction l with
  | nil =>
      simp only [List.findSome?_nil]
      constructor
      · intro h
        exact absurd h (by simp)
      · rintro ⟨l1, a, l2, h, -, -⟩
        exact absurd h (by simp)
  | cons x xs ih =>
      rw [List.findSome?_cons]
      cases hx : g x with
      | some v =>
          constructor
          · intro h
            change some v = some b at h
            exact ⟨[], x, xs, rfl, by simp, by rw [hx]; exact h⟩
          · rintro ⟨l1, a, l2, hdec, hnone, ha⟩
            cases l1 with
            | nil =>
                simp only [List.nil_append, List.cons.injEq] at hdec
                rw [← hdec.1, hx] at ha
                change some v = some b
                exact ha
            | cons y l1' =>
                simp only [List.cons_append, List.cons.injEq] at hdec
                have hgx : g x = none := hdec.1 ▸ hnone y (by simp)
                rw [hgx] at hx
                exact absurd hx (by simp)
      | none =>
          change List.findSome? g xs = some b ↔ _
          rw [ih]
          constructor
          · rintro ⟨l1, a, l2, hdec, hnone, ha⟩
            refine ⟨x :: l1, a, l2, by simp [hdec], ?_, ha⟩
            intro y hy
            rcases List.mem_cons.mp hy with h | h
            · rw [h]; exact hx
            · exact hnone y h
          · rintro ⟨l1, a, l2, hdec, hnone, ha⟩
            cases l1 with
            | nil =>
                simp only [List.nil_append, List.cons.injEq] at hdec
                rw [← hdec.1, hx] at ha
                exact absurd ha (by simp)
            | cons y l1' =>
                simp only [List.cons_append, List.cons.injEq] at hdec
                exact ⟨l1', a, l2, hdec.2, fun z hz => hnone z (by simp [hz]), ha⟩

theorem findSome?_flatMap_eq {α β γ : Type} (l1 : List α) (l2 : List β)
    (g : α × β → Option γ) :
    (l1.flatMap (fun a => l2.map (fun b => (a, b)))).findSome? g =
      l1.findSome? (fun a => l2.findSome? (fun b => g (a, b))) := by
  induction l1 with
  | nil => rfl
  | cons x xs ih =>
      rw [List.flatMap_cons, List.findSome?_append, List.findSome?_map,
        List.findSome?_cons]
      cases h : l2.findSome? (fun b => g (x, b)) with
      | some v =>
          have h2 : List.findSome? (g ∘ fun b => (x, b)) l2 = some v := by
            rw [← h]; rfl
          rw [h2]; rfl
      | none =>
          have h2 : List.findSome? (g ∘ fun b => (x, b)) l2 = none := by
            rw [← h]; rfl
          rw [h2, ih]; rfl

/-- The nested detection loop, flattened: `detect` searches the 20 pairs of
`pairList` in order for the first accepted trial. -/
theorem detect_eq_pairs (f : File) :
    detect f = pairList.findSome?
      (fun p => (tryPair f p.1 p.2).map (fun t => (p.1, p.2, t))) := by
  rw [detect, pairList, findSome?_flatMap_eq]

/-- `load_data` takes the failure branch exactly when the detection loop
accepts no trial. -/
theorem load_errorStop_iff (f : File) :
    load_data f = LoadOutcome.errorStop errMsg ↔ detect f = none := by
  rw [load_data]
  split
  · simp_all
  · rename_i heq
    constructor
    · intro h
      split at h <;> exact absurd h (by simp)
    · intro h
      rw [h] at heq
      exact absurd heq (by simp)

/-- The detection loop accepts no trial exactly when every (encoding,
delimiter) combination is eliminated. -/
theorem detect_none_iff (f : File) :
    detect f = none ↔
      ∀ enc ∈ encodings_to_try, ∀ sep ∈ seps_to_try, tryPair f enc sep = none := by
  rw [detect, List.findSome?_eq_none_iff]
  constructor
  · intro h enc henc sep hsep
    have h2 := h enc henc
    rw [List.findSome?_eq_none_iff] at h2
    exact Option.map_eq_none'.mp (h2 sep hsep)
  · intro h enc henc
    rw [List.findSome?_eq_none_iff]
    intro sep hsep
    rw [h enc henc sep hsep]
    rfl

/-- `load_data` always lands in one of its three outcomes. -/
theorem load_outcomes (f : File) :
    (∃ t, load_data f = LoadOutcome.table t) ∨
      load_data f = LoadOutcome.errorStop errMsg ∨
      load_data f = LoadOutcome.exception := by
  rw [load_data]
  split
  · exact Or.inr (Or.inl rfl)
  · split
    · rename_i u hp
      exact Or.inl ⟨u, rfl⟩
    · exact Or.inr (Or.inr rfl)

/-! ### Duplicate canonical names and the post-detection pipeline -/

/-- The per-field update of src/app.py lines 61-67 raises (returns `none`)
exactly when two or more columns carry the processed name. -/
theorem applyToColumn_none_iff (t : Table) (c : String) (g : List Cell → List Cell) :
    applyToColumn t c g = none ↔
      2 ≤ (t.filter (fun col => col.name = c)).length := by
  unfold applyToColumn
  split
  · rename_i h0
    simp only [h0]
    constructor
    · intro h
      exact absurd h (by simp)
    · omega
  · rename_i h1
    simp only [h1]
    constructor
    · intro h
      exact absurd h (by simp)
    · omega
  · rename_i n h0 h1
    constructor
    · intro _
      have h0b : (t.filter (fun col => col.name = c)).length ≠ 0 := h0
      have h1b : (t.filter (fun col => col.name = c)).length ≠ 1 := h1
      omega
    · intro _
      rfl


/-- The per-field update never changes any column name. -/
theorem applyToColumn_names (t : Table) (c : String) (g : List Cell → List Cell)
    (res : Table) (h : applyToColumn t c g = some res) :
    res.map (fun col => col.name) = t.map (fun col => col.name) := by
  unfold applyToColumn at h
  split at h
  · rw [Option.some.injEq] at h
    subst h
    rfl
  · rw [Option.some.injEq] at h
    subst h
    rw [List.map_map]
    apply List.map_congr_left
    intro col hcol
    show (if col.name = c then Column.mk col.name (g col.cells) else col).name =
      col.name
    by_cases hc : col.name = c
    · rw [if_pos hc]
    · rw [if_neg hc]
  · exact absurd h (by simp)

/-- Tables with the same name sequence have the same per-name column
counts. -/
theorem filter_name_length_eq (t res : Table)
    (hn : res.map (fun col => col.name) = t.map (fun col => col.name))
    (c : String) :
    (res.filter (fun col => col.name = c)).length =
      (t.filter (fun col => col.name = c)).length := by
  have h1 : ∀ u : Table, (u.filter (fun col => col.name = c)).length =
      (u.map (fun col => col.name)).countP (fun nm => nm = c) := by
    intro u
    rw [← List.countP_eq_length_filter, List.countP_map]
    rfl
  rw [h1, h1, hn]

/-- A sequence of per-field updates raises exactly when some processed name
is carried by two or more columns of the starting table. -/
theorem foldApply_none_iff (cs : List String) (g : List Cell → List Cell) :
    ∀ t : Table,
      (cs.foldlM (fun acc c => applyToColumn acc c g) t = none ↔
        ∃ c ∈ cs, 2 ≤ (t.filter (fun col => col.name = c)).length) := by
  induction cs with
  | nil =>
      intro t
      simp [List.foldlM_nil]
  | cons c cs ih =>
      intro t
      rw [List.foldlM_cons]
      cases hstep : applyToColumn t c g with
      | none =>
          simp only [Option.bind_eq_bind, Option.none_bind]
          constructor
          · intro _
            exact ⟨c, by simp, (applyToColumn_none_iff t c g).mp hstep⟩
          · intro _
            trivial
      | some mid =>
          simp only [Option.bind_eq_bind, Option.some_bind]
          rw [ih mid]
          have hn := applyToColumn_names t c g mid hstep
          constructor
          · rintro ⟨d, hd, hcount⟩
            refine ⟨d, by simp [hd], ?_⟩
            rw [← filter_name_length_eq t mid hn d]
            exact hcount
          · rintro ⟨d, hd, hcount⟩
            rcases List.mem_cons.mp hd with heq | hd2
            · exfalso
              subst heq
              have hno : applyToColumn t d g ≠ none := by
                rw [hstep]
                simp
              have hle := mt (applyToColumn_none_iff t d g).mpr hno
              omega
            · refine ⟨d, hd2, ?_⟩
              rw [filter_name_length_eq t mid hn d]
              exact hcount

/-- A successful sequence of per-field updates preserves the name
sequence. -/
theorem foldApply_names (cs : List String) (g : List Cell → List Cell) :
    ∀ t res : Table,
      cs.foldlM (fun acc c => applyToColumn acc c g) t = some res →
      res.map (fun col => col.name) = t.map (fun col => col.name) := by
  induction cs with
  | nil =>
      intro t res h
      simp only [List.foldlM_nil, Option.pure_def, Option.some.injEq] at h
      subst h
      rfl
  | cons c cs ih =>
      intro t res h
      rw [List.foldlM_cons] at h
      cases hstep : applyToColumn t c g with
      | none =>
          rw [hstep] at h
          simp only [Option.bind_eq_bind, Option.none_bind] at h
          exact absurd h (by simp)
      | some mid =>
          rw [hstep] at h
          simp only [Option.bind_eq_bind, Option.some_bind] at h
          rw [ih mid res h, applyToColumn_names t c g mid hstep]

/-- Columns named `c` after the rename are exactly the columns whose
(normalized) header resolves to `c` through the alias table. -/
theorem renameColumns_count (d : Table) (c : String) :
    ((renameColumns d).filter (fun col => col.name = c)).length =
      (d.filter (fun col => aliasResolve col.name = c)).length := by
  rw [renameColumns, List.filter_map, List.length_map]
  rfl


/-- The six canonical fields of `REQUIRED` are exactly the four numerically
coerced names together with the two trimmed names. -/
theorem mem_six_iff (c : String) :
    c ∈ REQUIRED ↔ c ∈ numericCols ++ textCols := by
  simp only [REQUIRED, numericCols, textCols, List.mem_append, List.mem_cons,
    List.mem_singleton, List.not_mem_nil, or_false]
  tauto

/-- The post-detection pipeline raises an unhandled exception exactly when
two or more headers of the selected parse resolve to the same canonical
field name. -/
theorem postProcess_none_iff (d : Table) :
    postProcess d = none ↔
      ∃ c ∈ REQUIRED, 2 ≤ (d.filter (fun col => aliasResolve col.name = c)).length := by
  have hbridge : ∀ c, (d.filter (fun col => aliasResolve col.name = c)).length =
      ((renameColumns d).filter (fun col => col.name = c)).length :=
    fun c => (renameColumns_count d c).symm
  rw [postProcess]
  cases h1 : numericCols.foldlM (fun acc c => applyToColumn acc c coerceColumn)
      (renameColumns d) with
  | none =>
      simp only [Option.bind]
      constructor
      · intro _
        obtain ⟨c, hc, hcount⟩ :=
          (foldApply_none_iff numericCols coerceColumn (renameColumns d)).mp h1
        refine ⟨c, (mem_six_iff c).mpr (List.mem_append.mpr (Or.inl hc)), ?_⟩
        rw [hbridge c]
        exact hcount
      · intro _
        trivial
  | some t2 =>
      simp only [Option.bind]
      rw [foldApply_none_iff textCols trimColumn t2]
      have hn := foldApply_names numericCols coerceColumn (renameColumns d) t2 h1
      have hnone1 : ¬ ∃ c ∈ numericCols,
          2 ≤ ((renameColumns d).filter (fun col => col.name = c)).length := by
        intro hex
        have hcontra :=
          (foldApply_none_iff numericCols coerceColumn (renameColumns d)).mpr hex
        rw [h1] at hcontra
        exact absurd hcontra (by simp)
      constructor
      · rintro ⟨c, hc, hcount⟩
        refine ⟨c, (mem_six_iff c).mpr (List.mem_append.mpr (Or.inr hc)), ?_⟩
        rw [hbridge c, ← filter_name_length_eq (renameColumns d) t2 hn c]
        exact hcount
      · rintro ⟨c, hc, hcount⟩
        rw [hbridge c] at hcount
        rcases List.mem_append.mp ((mem_six_iff c).mp hc) with h | h
        · exact absurd ⟨c, h, hcount⟩ hnone1
        · refine ⟨c, h, ?_⟩
          rw [filter_name_length_eq (renameColumns d) t2 hn c]
          exact hcount

/-! ### Closed evaluations settling the concrete sides of the claims -/

/-- C1, counterexample.  On the ASCII file `"sales;profit,extra\n1;2,3"`
the comma trial parses into two columns none of which is canonical, and the
semicolon trial parses into two columns one of which is `sales`.  The code
(`detect`) keeps the first multi-column parse — the comma candidate — while
the score-maximizing selection the claim describes (`specDetect`) picks the
semicolon candidate, so the loader does not return the candidate maximizing
`required_hit * W - mojibake_penalty`. -/
theorem c1_counterexample :
    detect (asciiFile "sales;profit,extra\n1;2,3") =
      some (Encoding.utf8, ',',
        [⟨"sales;profit", [Cell.str "1;2"]⟩, ⟨"extra", [Cell.str "3"]⟩]) ∧
    specDetect (asciiFile "sales;profit,extra\n1;2,3") =
      some (Encoding.utf8, ';',
        [⟨"sales", [Cell.str "1"]⟩, ⟨"profit,extra", [Cell.str "2,3"]⟩]) ∧
    detect (asciiFile "sales;profit,extra\n1;2,3") ≠
      specDetect (asciiFile "sales;profit,extra\n1;2,3") := by
  refine ⟨rfl, rfl, ?_⟩
  decide

/-- C2, counterexample.  The ASCII file `"vendas,sales\n1,2"` parses into a
two-column table at the very first (encoding, delimiter) trial, so not
every combination fails — yet `load_data` does not return a parsed table:
both headers resolve to the canonical name `sales` and the unhandled
exception raised by `pd.to_numeric` on the duplicated column escapes. -/
theorem c2_counterexample :
    tryPair (asciiFile "vendas,sales\n1,2") Encoding.utf8 ',' =
      some [⟨"vendas", [Cell.str "1"]⟩, ⟨"sales", [Cell.str "2"]⟩] ∧
    load_data (asciiFile "vendas,sales\n1,2") = LoadOutcome.exception ∧
    ∀ t, load_data (asciiFile "vendas,sales\n1,2") ≠ LoadOutcome.table t := by
  refine ⟨rfl, rfl, fun t h => ?_⟩
  rw [show load_data (asciiFile "vendas,sales\n1,2") = LoadOutcome.exception from rfl] at h
  exact LoadOutcome.noConfusion h

/-- C3, counterexample.  On the ASCII file `"hello\nworld"` every
(encoding, delimiter) trial yields a single-column table, and `load_data`
neither returns a table nor returns a typed error value: it calls
`st.error` — a user-interface action — and `st.stop`, which halts the
script (the `errorStop` outcome). -/
theorem c3_counterexample :
    load_data (asciiFile "hello\nworld") = LoadOutcome.errorStop errMsg := by
  rfl

/-- C4.  On the ASCII file `"lucro,profit\n1,2"` the raw headers `lucro`
and `profit` both resolve to the canonical name `profit`; the code raises
an unhandled exception (`pd.to_numeric` applied to the duplicated column)
instead of failing with a typed `AmbiguousColumnMapping` error, which does
not exist anywhere in the code. -/
theorem c4_code_raises :
    resolveHeader "lucro" = "profit" ∧ resolveHeader "profit" = "profit" ∧
    load_data (asciiFile "lucro,profit\n1,2") = LoadOutcome.exception := by
  exact ⟨rfl, rfl, rfl⟩

/-- C6, counterexample.  On the ASCII file `"region,sales\n,1"` the single
`region` cell is missing after parsing, but the returned table holds the
literal string `"nan"` there — `astype(str)` renders NaN as `"nan"` before
stripping — so a cell that was missing is not missing in the result. -/
theorem c6_counterexample :
    detect (asciiFile "region,sales\n,1") =
      some (Encoding.utf8, ',',
        [⟨"region", [Cell.na]⟩, ⟨"sales", [Cell.str "1"]⟩]) ∧
    load_data (asciiFile "region,sales\n,1") =
      LoadOutcome.table [⟨"region", [Cell.str "nan"]⟩, ⟨"sales", [Cell.num 1]⟩] ∧
    Cell.str "nan" ≠ Cell.na := by
  refine ⟨rfl, rfl, ?_⟩
  decide

/-- C7, counterexample.  For the single-column logical table with header
`a` and rows `1`, `2`, the comma and semicolon serializations coincide and
contain no delimiter at all, so every trial is rejected at the `≤ 1
column` check on both files: the detector selects no delimiter and no
CanonicalTable is produced for either file. -/
theorem c7_counterexample :
    serialize ⟨["a"], [["1"], ["2"]]⟩ ',' = "a\n1\n2" ∧
    serialize ⟨["a"], [["1"], ["2"]]⟩ ';' = "a\n1\n2" ∧
    detect (asciiFile "a\n1\n2") = none ∧
    load_data (asciiFile "a\n1\n2") = LoadOutcome.errorStop errMsg := by
  exact ⟨rfl, rfl, rfl, rfl⟩

/-- C8.  The raw headers `"Região"`, `"REGIAO"` and `" região "` each
resolve, after `_normalize_cols` normalization and `ALIASES` lookup, to the
canonical field name `region`. -/
theorem c8_accent_aliases :
    resolveHeader "Região" = "region" ∧
    resolveHeader "REGIAO" = "region" ∧
    resolveHeader " região " = "region" := by
  exact ⟨rfl, rfl, rfl⟩

/-- C9, counterexample.  Header normalization strips whitespace before it
removes the byte-order mark, so on `"\uFEFF\ta"` (a BOM followed by a tab)
the first pass yields `"\ta"` and a second pass strips the now-exposed tab:
normalization is not idempotent. -/
theorem c9_counterexample :
    normalizeHeader "\uFEFF\ta" = "\ta" ∧
    normalizeHeader (normalizeHeader "\uFEFF\ta") = "a" ∧
    normalizeHeader (normalizeHeader "\uFEFF\ta") ≠ normalizeHeader "\uFEFF\ta" := by
  refine ⟨rfl, rfl, ?_⟩
  decide

/-- C10, counterexample.  On the ASCII file `"vendas,x\nn/a,1"` the first
column's normalized header `vendas` is not one of the six canonical field
names, yet the loader renames it to `sales` and numerically coerces it: its
cell `n/a` comes back as a missing value, not as its parsed value. -/
theorem c10_counterexample :
    detect (asciiFile "vendas,x\nn/a,1") =
      some (Encoding.utf8, ',',
        [⟨"vendas", [Cell.str "n/a"]⟩, ⟨"x", [Cell.str "1"]⟩]) ∧
    (∀ r ∈ REQUIRED, r ≠ "vendas") ∧
    load_data (asciiFile "vendas,x\nn/a,1") =
      LoadOutcome.table [⟨"sales", [Cell.na]⟩, ⟨"x", [Cell.str "1"]⟩] ∧
    Cell.na ≠ Cell.str "n/a" := by
  refine ⟨rfl, ?_, rfl, ?_⟩ <;> decide

/-! ### Amended universal theorems -/

/-- C1 (amended).  The detection loop tries the (encoding, delimiter) pairs
in the fixed nested order — the five encodings outer, the four delimiters
inner — and selects exactly the first pair whose trial parses into a
multi-column table; no score is computed, and every pair before the
selected one was eliminated. -/
theorem c1_first_success (f : File) (e : Encoding) (s : Char) (t : Table) :
    detect f = some (e, s, t) ↔
      ∃ l1 l2, pairList = l1 ++ (e, s) :: l2 ∧
        (∀ p ∈ l1, tryPair f p.1 p.2 = none) ∧ tryPair f e s = some t := by
  rw [detect_eq_pairs, findSome?_decomp]
  constructor
  · rintro ⟨l1, a, l2, hdec, hnone, ha⟩
    obtain ⟨ea, sa⟩ := a
    cases htp : tryPair f ea sa with
    | none => rw [htp] at ha; exact absurd ha (by simp)
    | some u =>
        rw [htp] at ha
        simp only [Option.map_some', Option.some.injEq, Prod.mk.injEq] at ha
        obtain ⟨he, hs, ht⟩ := ha
        subst he hs ht
        exact ⟨l1, l2, hdec, fun p hp => Option.map_eq_none'.mp (hnone p hp), htp⟩
  · rintro ⟨l1, l2, hdec, hnone, htp⟩
    refine ⟨l1, (e, s), l2, hdec, fun p hp => ?_, by rw [htp]; rfl⟩
    rw [hnone p hp]
    rfl

/-- C2 (amended).  `load_data` takes its failure branch — `st.error` with
the fixed message followed by `st.stop()`, the behavior the spec names
`NoParsableDialect` — exactly when every (encoding, delimiter) combination
either fails to decode/parse or yields a table with at most one column.
Otherwise a trial is selected, and on the selected parse: an unhandled
exception escapes exactly when two or more of its headers resolve, via the
alias table, to the same canonical field name; when no two headers collide
this way, the loader returns a parsed table. -/
theorem c2_error_iff (f : File) :
    (load_data f = LoadOutcome.errorStop errMsg ↔
      ∀ enc ∈ encodings_to_try, ∀ sep ∈ seps_to_try, tryPair f enc sep = none) ∧
    (∀ e : Encoding, ∀ s : Char, ∀ d : Table, detect f = some (e, s, d) →
      (load_data f = LoadOutcome.exception ↔
        ∃ c ∈ REQUIRED,
          2 ≤ (d.filter (fun col => aliasResolve col.name = c)).length) ∧
      ((∀ c ∈ REQUIRED,
          (d.filter (fun col => aliasResolve col.name = c)).length ≤ 1) →
        ∃ t, load_data f = LoadOutcome.table t)) := by
  refine ⟨(load_errorStop_iff f).trans (detect_none_iff f), ?_⟩
  intro e s d hdet
  have hload : load_data f = (match postProcess d with
      | some t => LoadOutcome.table t
      | none => LoadOutcome.exception) := by
    rw [load_data, hdet]
  constructor
  · rw [hload]
    split
    · rename_i t hp
      constructor
      · intro habs
        exact absurd habs (by simp)
      · intro hex
        have hcontra := (postProcess_none_iff d).mpr hex
        rw [hp] at hcontra
        exact absurd hcontra (by simp)
    · rename_i hp
      constructor
      · intro _
        exact (postProcess_none_iff d).mp hp
      · intro _
        rfl
  · intro hle
    rw [hload]
    split
    · rename_i t hp
      exact ⟨t, rfl⟩
    · rename_i hp
      exfalso
      obtain ⟨c, hc, hcount⟩ := (postProcess_none_iff d).mp hp
      have hc1 := hle c hc
      omega

/-- Witness for `c2_error_iff`: on `"vendas,sales\n1,2"` both headers
resolve to `sales`, so the exception-iff applies with a concrete duplicate;
on `"x,y\n3,4"` no headers collide and a table is returned. -/
theorem c2_error_iff_witness :
    (load_data (asciiFile "vendas,sales\n1,2") = LoadOutcome.exception ↔
      ∃ c ∈ REQUIRED,
        2 ≤ (([⟨"vendas", [Cell.str "1"]⟩, ⟨"sales", [Cell.str "2"]⟩] : Table).filter
          (fun col => aliasResolve col.name = c)).length) ∧
    (∃ t, load_data (asciiFile "x,y\n3,4") = LoadOutcome.table t) := by
  have h1 := (c2_error_iff (asciiFile "vendas,sales\n1,2")).2 Encoding.utf8 ','
    [⟨"vendas", [Cell.str "1"]⟩, ⟨"sales", [Cell.str "2"]⟩] rfl
  have h2 := (c2_error_iff (asciiFile "x,y\n3,4")).2 Encoding.utf8 ','
    [⟨"x", [Cell.str "3"]⟩, ⟨"y", [Cell.str "4"]⟩] rfl
  exact ⟨h1.1, h2.2 (by decide)⟩

/-- C3 (amended).  For every input, `load_data` lands in exactly one of
three outcomes: it returns a table, it displays a UI error and halts the
script (`st.error` + `st.stop`, when no trial is accepted), or it lets an
unhandled exception escape (ambiguous canonical mapping); and a per-trial
decode/parse failure never aborts the search — whenever any (encoding,
delimiter) trial is accepted, the loader does not take the failure
branch. -/
theorem c3_loader_outcomes (f : File) :
    ((∃ t, load_data f = LoadOutcome.table t) ∨
      load_data f = LoadOutcome.errorStop errMsg ∨
      load_data f = LoadOutcome.exception) ∧
    (∀ enc ∈ encodings_to_try, ∀ sep ∈ seps_to_try, ∀ t,
      tryPair f enc sep = some t → load_data f ≠ LoadOutcome.errorStop errMsg) := by
  refine ⟨load_outcomes f, ?_⟩
  intro enc henc sep hsep t ht hload
  have h2 := (detect_none_iff f).mp ((load_errorStop_iff f).mp hload) enc henc sep hsep
  rw [ht] at h2
  exact absurd h2 (by simp)

/-- Witness for `c3_loader_outcomes` at a concrete file: on
`"a,b\n1,2"` the loader returns a table, and the accepted first trial
rules out the failure branch. -/
theorem c3_loader_outcomes_witness :
    (((∃ t, load_data (asciiFile "a,b\n1,2") = LoadOutcome.table t) ∨
      load_data (asciiFile "a,b\n1,2") = LoadOutcome.errorStop errMsg ∨
      load_data (asciiFile "a,b\n1,2") = LoadOutcome.exception) ∧
    (∀ enc ∈ encodings_to_try, ∀ sep ∈ seps_to_try, ∀ t,
      tryPair (asciiFile "a,b\n1,2") enc sep = some t →
        load_data (asciiFile "a,b\n1,2") ≠ LoadOutcome.errorStop errMsg)) ∧
    tryPair (asciiFile "a,b\n1,2") Encoding.utf8 ',' =
      some [⟨"a", [Cell.str "1"]⟩, ⟨"b", [Cell.str "2"]⟩] :=
  ⟨c3_loader_outcomes (asciiFile "a,b\n1,2"), rfl⟩

/-- Witness for `c1_first_success` at a concrete file: on
`"a;b\n1;2"` the comma trial is eliminated (single column) and the
semicolon trial is the first accepted pair. -/
theorem c1_first_success_witness :
    detect (asciiFile "a;b\n1;2") =
      some (Encoding.utf8, ';', [⟨"a", [Cell.str "1"]⟩, ⟨"b", [Cell.str "2"]⟩]) ∧
    (∃ l1 l2, pairList = l1 ++ (Encoding.utf8, ';') :: l2 ∧
      (∀ p ∈ l1, tryPair (asciiFile "a;b\n1;2") p.1 p.2 = none) ∧
      tryPair (asciiFile "a;b\n1;2") Encoding.utf8 ';' =
        some [⟨"a", [Cell.str "1"]⟩, ⟨"b", [Cell.str "2"]⟩]) :=
  ⟨rfl, (c1_first_success (asciiFile "a;b\n1;2") Encoding.utf8 ';'
      [⟨"a", [Cell.str "1"]⟩, ⟨"b", [Cell.str "2"]⟩]).mp rfl⟩

/-- C5.  The coercion `load_data` applies to each of the four numeric
canonical fields (`coerceColumn`, i.e. `pd.to_numeric(...,
errors="coerce")`) is total — every cell becomes either a number or the
missing marker — and per-cell: in a column whose cell at position `i` is
the only non-numeric one, exactly that cell becomes missing and every
other cell becomes exactly its numeric value. -/
theorem c5_numeric_coercion (col : List Cell) (i : ℕ) (hi : i < col.length)
    (hbad : cellNum (col.get ⟨i, hi⟩) = none)
    (hgood : ∀ j, ∀ hj : j < col.length, j ≠ i →
      ∃ q, cellNum (col.get ⟨j, hj⟩) = some q) :
    (∀ c : Cell, coerceCell c = Cell.na ∨ ∃ q, coerceCell c = Cell.num q) ∧
    (coerceColumn col).length = col.length ∧
    (coerceColumn col).get ⟨i, by simpa [coerceColumn] using hi⟩ = Cell.na ∧
    (∀ j, ∀ hj : j < col.length, ∀ q, cellNum (col.get ⟨j, hj⟩) = some q →
      (coerceColumn col).get ⟨j, by simpa [coerceColumn] using hj⟩ = Cell.num q) := by
  have hcoerce : ∀ c : Cell, ∀ q, cellNum c = some q → coerceCell c = Cell.num q := by
    intro c q hq
    cases c with
    | na => exact absurd hq (by simp [cellNum])
    | str s =>
        simp only [cellNum] at hq
        simp [coerceCell, hq]
    | num r =>
        simp only [cellNum, Option.some.injEq] at hq
        simp [coerceCell, hq]
  have hcoerce0 : ∀ c : Cell, cellNum c = none → coerceCell c = Cell.na := by
    intro c hq
    cases c with
    | na => rfl
    | str s =>
        simp only [cellNum] at hq
        simp [coerceCell, hq]
    | num r => exact absurd hq (by simp [cellNum])
  refine ⟨?_, by simp [coerceColumn], ?_, ?_⟩
  · intro c
    cases hq : cellNum c with
    | none => exact Or.inl (hcoerce0 c hq)
    | some q => exact Or.inr ⟨q, hcoerce c q hq⟩
  · simp only [coerceColumn, List.get_map]
    exact hcoerce0 _ hbad
  · intro j hj q hq
    simp only [coerceColumn, List.get_map]
    exact hcoerce _ q hq

/-- Witness for `c5_numeric_coercion`: in the column
`["1", "n/a", "2.5"]` the single non-numeric cell `"n/a"` becomes missing
and both neighbours become their exact numeric values. -/
theorem c5_numeric_coercion_witness :
    (coerceColumn [Cell.str "1", Cell.str "n/a", Cell.str "27"]).get
        ⟨1, by simp [coerceColumn]⟩ = Cell.na ∧
    (coerceColumn [Cell.str "1", Cell.str "n/a", Cell.str "27"]).get
        ⟨0, by simp [coerceColumn]⟩ = Cell.num 1 ∧
    (coerceColumn [Cell.str "1", Cell.str "n/a", Cell.str "27"]).get
        ⟨2, by simp [coerceColumn]⟩ = Cell.num 27 := by
  have h := c5_numeric_coercion [Cell.str "1", Cell.str "n/a", Cell.str "27"]
    1 (by decide) (by decide)
    (by
      intro j hj hne
      have hj3 : j < 3 := by simpa using hj
      interval_cases j
      · exact ⟨1, rfl⟩
      · exact absurd rfl hne
      · exact ⟨27, rfl⟩)
  exact ⟨h.2.2.1, h.2.2.2 0 (by decide) 1 rfl,
    h.2.2.2 2 (by decide) 27 rfl⟩

/-- C6 (amended).  The trimming `load_data` applies to each of the two
textual canonical fields (`trimColumn`, i.e.
`.astype(str).str.strip()`) strips leading and trailing whitespace from
every string cell — but a cell that was missing does not stay missing: it
becomes the literal string `"nan"`, because `astype(str)` renders NaN as
`"nan"` before the strip. -/
theorem c6_trim_behavior (cells : List Cell) (j : ℕ) (hj : j < cells.length) :
    (trimColumn cells).length = cells.length ∧
    (cells.get ⟨j, hj⟩ = Cell.na →
      (trimColumn cells).get ⟨j, by simpa [trimColumn] using hj⟩ = Cell.str "nan") ∧
    (∀ s, cells.get ⟨j, hj⟩ = Cell.str s →
      (trimColumn cells).get ⟨j, by simpa [trimColumn] using hj⟩ =
        Cell.str (pyStrip s)) := by
  refine ⟨by simp [trimColumn], ?_, ?_⟩
  · intro h
    simp only [trimColumn, List.get_map, h]
    rfl
  · intro s h
    simp only [trimColumn, List.get_map, h]
    rfl

/-- Witness for `c6_trim_behavior`: in the column `[NaN, "  x "]` the
missing cell becomes the string `"nan"` and the string cell is trimmed
to `"x"`. -/
theorem c6_trim_behavior_witness :
    (trimColumn [Cell.na, Cell.str "  x "]).get ⟨0, by simp [trimColumn]⟩ =
      Cell.str "nan" ∧
    (trimColumn [Cell.na, Cell.str "  x "]).get ⟨1, by simp [trimColumn]⟩ =
      Cell.str (pyStrip "  x ") ∧
    pyStrip "  x " = "x" := by
  refine ⟨(c6_trim_behavior [Cell.na, Cell.str "  x "] 0 (by decide)).2.1 rfl,
    (c6_trim_behavior [Cell.na, Cell.str "  x "] 1 (by decide)).2.2 "  x " rfl,
    by decide⟩

/-! ### Header-normalization idempotence (byte-order-mark-free headers) -/

theorem toNat_toLower (c : Char) :
    (Char.toLower c).toNat =
      if 65 ≤ c.toNat ∧ c.toNat ≤ 90 then c.toNat + 32 else c.toNat := by
  unfold Char.toLower
  split
  case isTrue h =>
    rw [if_pos (by omega)]
    unfold Char.ofNat
    rw [dif_pos (by left; omega)]
    rfl
  case isFalse h =>
    rw [if_neg (by omega)]

theorem toNat_inj {c d : Char} (h : c.toNat = d.toNat) : c = d := by
  apply Char.ext
  exact UInt32.toNat.inj h

theorem toLower_idem (c : Char) :
    Char.toLower (Char.toLower c) = Char.toLower c := by
  apply toNat_inj
  rw [toNat_toLower (Char.toLower c), toNat_toLower c]
  split_ifs <;> omega

theorem toLower_fix_of_not_upper (c : Char) (h : ¬(65 ≤ c.toNat ∧ c.toNat ≤ 90)) :
    Char.toLower c = c := by
  apply toNat_inj
  rw [toNat_toLower, if_neg h]

theorem toLower_lands (c : Char) :
    (97 ≤ (Char.toLower c).toNat ∧ (Char.toLower c).toNat ≤ 122) ∨
      Char.toLower c = c := by
  by_cases h : 65 ≤ c.toNat ∧ c.toNat ≤ 90
  · left
    rw [toNat_toLower, if_pos h]
    omega
  · right
    exact toLower_fix_of_not_upper c h

theorem toLower_eq_low (c X : Char) (hX : X.toNat < 97 ∨ 122 < X.toNat)
    (h : Char.toLower c = X) : c = X := by
  rcases toLower_lands c with ⟨h1, h2⟩ | hc
  · rw [h] at h1 h2
    omega
  · rw [← hc, h]


theorem head?_dropWhile {α : Type} (p : α → Bool) (l : List α) :
    ∀ x, (l.dropWhile p).head? = some x → p x = false := by
  intro x hx
  have h := List.head?_dropWhile_not p l
  rw [hx] at h
  exact h

theorem dropWhile_eq_self_of_head {α : Type} (p : α → Bool) (l : List α)
    (h : ∀ x, l.head? = some x → p x = false) : l.dropWhile p = l := by
  cases l with
  | nil => rfl
  | cons x xs =>
      rw [List.dropWhile_cons, if_neg]
      rw [h x rfl]
      simp

theorem stripChars_eq_self (l : List Char)
    (h1 : ∀ x, l.head? = some x → Char.isWhitespace x = false)
    (h2 : ∀ x, l.getLast? = some x → Char.isWhitespace x = false) :
    stripChars l = l := by
  unfold stripChars
  rw [dropWhile_eq_self_of_head _ l h1]
  rw [dropWhile_eq_self_of_head _ l.reverse
    (fun x hx => h2 x (by rw [← List.head?_reverse]; exact hx))]
  exact l.reverse_reverse

theorem stripChars_getLast (l : List Char) :
    ∀ x, (stripChars l).getLast? = some x → Char.isWhitespace x = false := by
  intro x hx
  unfold stripChars at hx
  rw [List.getLast?_reverse] at hx
  exact head?_dropWhile _ _ x hx

theorem stripChars_head (l : List Char) :
    ∀ x, (stripChars l).head? = some x → Char.isWhitespace x = false := by
  intro x hx
  unfold stripChars at hx
  rw [List.head?_reverse] at hx
  obtain ⟨t, ht⟩ :=
    List.dropWhile_suffix (l := (l.dropWhile Char.isWhitespace).reverse)
      Char.isWhitespace
  have hA : ((l.dropWhile Char.isWhitespace).reverse).getLast? = some x := by
    rw [← ht, List.getLast?_append, hx]
    rfl
  rw [List.getLast?_reverse] at hA
  exact head?_dropWhile _ _ x hA

theorem mem_stripChars {x : Char} {l : List Char} (hx : x ∈ stripChars l) :
    x ∈ l := by
  unfold stripChars at hx
  rw [List.mem_reverse] at hx
  have h2 := (List.dropWhile_suffix Char.isWhitespace).subset hx
  rw [List.mem_reverse] at h2
  exact (List.dropWhile_suffix Char.isWhitespace).subset h2


theorem ws_toNat (c : Char) (h : Char.isWhitespace c = true) :
    c.toNat = 32 ∨ c.toNat = 9 ∨ c.toNat = 13 ∨ c.toNat = 10 := by
  simp only [Char.isWhitespace, Bool.or_eq_true, decide_eq_true_eq] at h
  rcases h with ((h | h) | h) | h <;> subst h
  · exact Or.inl (by decide)
  · exact Or.inr (Or.inl (by decide))
  · exact Or.inr (Or.inr (Or.inl (by decide)))
  · exact Or.inr (Or.inr (Or.inr (by decide)))

theorem nonws_toLower (c : Char) (h : Char.isWhitespace c = false) :
    Char.isWhitespace (Char.toLower c) = false := by
  rcases toLower_lands c with ⟨h1, h2⟩ | hfix
  · by_contra hws
    simp only [Bool.not_eq_false] at hws
    have h3 := ws_toNat _ hws
    omega
  · rw [hfix]
    exact h

theorem nonws_sp (c : Char) (h : Char.isWhitespace c = false) :
    Char.isWhitespace (if c = ' ' then '_' else c) = false := by
  by_cases hc : c = ' '
  · subst hc
    exact absurd h (by decide)
  · rw [if_neg hc]
    exact h

theorem sp_idem (c : Char) :
    (if (if c = ' ' then '_' else c) = ' ' then '_'
      else (if c = ' ' then '_' else c)) = if c = ' ' then '_' else c := by
  by_cases hc : c = ' '
  · simp [hc]
  · simp [hc]

theorem toLower_ne_bom (c : Char) (h : c ≠ '\uFEFF') :
    Char.toLower c ≠ '\uFEFF' := by
  intro he
  exact h (toLower_eq_low c '\uFEFF' (by right; decide) he)

theorem sp_ne_bom (c : Char) (h : c ≠ '\uFEFF') :
    (if c = ' ' then '_' else c) ≠ '\uFEFF' := by
  by_cases hc : c = ' '
  · simp [hc]
  · rw [if_neg hc]
    exact h

theorem toLower_sp_fix (y : Char) :
    Char.toLower (if Char.toLower y = ' ' then '_' else Char.toLower y) =
      if Char.toLower y = ' ' then '_' else Char.toLower y := by
  rcases toLower_lands y with ⟨h1, h2⟩ | hfix
  · have hne : Char.toLower y ≠ ' ' := by
      intro he
      rw [he] at h1
      exact absurd h1 (by decide)
    rw [if_neg hne]
    apply toLower_fix_of_not_upper
    omega
  · by_cases hy : Char.toLower y = ' '
    · rw [if_pos hy]
      decide
    · simp [hy, toLower_idem]


theorem c9_normalize_idempotent (s : String) (hb : '\uFEFF' ∉ s.toList) :
    normalizeHeader (normalizeHeader s) = normalizeHeader s := by
  have hfil : (((stripChars s.toList).map Char.toLower).filter
      (fun c => c ≠ '\uFEFF')) = (stripChars s.toList).map Char.toLower := by
    rw [List.filter_eq_self]
    intro a ha
    obtain ⟨y, hy, hya⟩ := List.mem_map.mp ha
    have hyB : y ≠ '\uFEFF' := fun he => hb (he ▸ mem_stripChars hy)
    subst hya
    simpa using toLower_ne_bom y hyB
  have hM : (normalizeHeader s).toList =
      (stripChars s.toList).map (fun c =>
        if Char.toLower c = ' ' then '_' else Char.toLower c) := by
    show ((((stripChars s.toList).map Char.toLower).filter
        (fun c => c ≠ '\uFEFF')).map (fun c => if c = ' ' then '_' else c)) = _
    rw [hfil, List.map_map]
    rfl
  have hmem : ∀ x ∈ (normalizeHeader s).toList, ∃ y ∈ stripChars s.toList,
      (if Char.toLower y = ' ' then '_' else Char.toLower y) = x := by
    intro x hx
    rw [hM] at hx
    exact List.mem_map.mp hx
  have hhead : ∀ x, ((normalizeHeader s).toList).head? = some x →
      Char.isWhitespace x = false := by
    intro x hx
    rw [hM, List.head?_map] at hx
    cases hh : (stripChars s.toList).head? with
    | none => rw [hh] at hx; exact absurd hx (by simp)
    | some y =>
        rw [hh] at hx
        simp only [Option.map_some', Option.some.injEq] at hx
        subst hx
        exact nonws_sp _ (nonws_toLower y (stripChars_head _ y hh))
  have hlast : ∀ x, ((normalizeHeader s).toList).getLast? = some x →
      Char.isWhitespace x = false := by
    intro x hx
    rw [hM, List.getLast?_map] at hx
    cases hh : (stripChars s.toList).getLast? with
    | none => rw [hh] at hx; exact absurd hx (by simp)
    | some y =>
        rw [hh] at hx
        simp only [Option.map_some', Option.some.injEq] at hx
        subst hx
        exact nonws_sp _ (nonws_toLower y (stripChars_getLast _ y hh))
  have s0 : stripChars ((normalizeHeader s).toList) = (normalizeHeader s).toList :=
    stripChars_eq_self _ hhead hlast
  have s1 : ((normalizeHeader s).toList).map Char.toLower =
      (normalizeHeader s).toList := by
    have hpt : ∀ x ∈ (normalizeHeader s).toList, Char.toLower x = x := by
      intro x hx
      obtain ⟨y, hy, rfl⟩ := hmem x hx
      exact toLower_sp_fix y
    calc ((normalizeHeader s).toList).map Char.toLower
        = ((normalizeHeader s).toList).map id := List.map_congr_left hpt
      _ = (normalizeHeader s).toList := List.map_id _
  have s2 : ((normalizeHeader s).toList).filter (fun c => c ≠ '\uFEFF') =
      (normalizeHeader s).toList := by
    rw [List.filter_eq_self]
    intro x hx
    obtain ⟨y, hy, rfl⟩ := hmem x hx
    have hyB : y ≠ '\uFEFF' := fun he => hb (he ▸ mem_stripChars hy)
    have hlow := toLower_ne_bom y hyB
    by_cases hsp : Char.toLower y = ' '
    · simp [hsp]
    · simp [hsp, hlow]
  have s3 : ((normalizeHeader s).toList).map (fun c => if c = ' ' then '_' else c) =
      (normalizeHeader s).toList := by
    have hpt : ∀ x ∈ (normalizeHeader s).toList,
        (if x = ' ' then '_' else x) = x := by
      intro x hx
      obtain ⟨y, hy, rfl⟩ := hmem x hx
      exact sp_idem (Char.toLower y)
    calc ((normalizeHeader s).toList).map (fun c => if c = ' ' then '_' else c)
        = ((normalizeHeader s).toList).map id := List.map_congr_left hpt
      _ = (normalizeHeader s).toList := List.map_id _
  show String.mk ((((stripChars ((normalizeHeader s).toList)).map
      Char.toLower).filter (fun c => c ≠ '\uFEFF')).map
        (fun c => if c = ' ' then '_' else c)) = normalizeHeader s
  rw [s0]
  rw [show ((normalizeHeader s).toList).map Char.toLower =
    (normalizeHeader s).toList from s1]
  rw [s2, s3, mk_toList]


/-- Witness for `c9_normalize_idempotent`: the header `"Region X"` is free
of the byte-order mark and normalizes idempotently to `"region_x"`. -/
theorem c9_normalize_idempotent_witness :
    '\uFEFF' ∉ "Region X".toList ∧
    normalizeHeader "Region X" = "region_x" ∧
    normalizeHeader (normalizeHeader "Region X") = normalizeHeader "Region X" :=
  ⟨by decide, rfl, c9_normalize_idempotent "Region X" (by decide)⟩


/-! ### Frame property of the post-detection pipeline -/

/-- A column whose name differs from `c` is untouched by the
`if c in df.columns: df[c] = ...` step. -/
theorem applyToColumn_frame (t : Table) (c : String) (g : List Cell → List Cell)
    (res : Table) (h : applyToColumn t c g = some res) :
    res.length = t.length ∧
    ∀ j, ∀ hj : j < t.length, ∀ hj2 : j < res.length,
      (t.get ⟨j, hj⟩).name ≠ c → res.get ⟨j, hj2⟩ = t.get ⟨j, hj⟩ := by
  unfold applyToColumn at h
  split at h
  · rw [Option.some.injEq] at h
    subst h
    exact ⟨rfl, fun j hj hj2 hne => rfl⟩
  · rw [Option.some.injEq] at h
    subst h
    refine ⟨by simp, fun j hj hj2 hne => ?_⟩
    rw [List.get_map]
    rw [if_neg]
    intro he
    exact hne he
  · exact absurd h (by simp)

/-- Columns whose names avoid every processed field name are untouched by a
sequence of per-field column updates. -/
theorem foldApply_frame (cs : List String) (g : List Cell → List Cell) :
    ∀ (t res : Table),
      cs.foldlM (fun acc c => applyToColumn acc c g) t = some res →
      res.length = t.length ∧
      ∀ j, ∀ hj : j < t.length, ∀ hj2 : j < res.length,
        (∀ c ∈ cs, (t.get ⟨j, hj⟩).name ≠ c) →
        res.get ⟨j, hj2⟩ = t.get ⟨j, hj⟩ := by
  induction cs with
  | nil =>
      intro t res h
      simp only [List.foldlM_nil, Option.pure_def, Option.some.injEq] at h
      subst h
      exact ⟨rfl, fun j hj hj2 _ => rfl⟩
  | cons c cs ih =>
      intro t res h
      rw [List.foldlM_cons] at h
      cases hstep : applyToColumn t c g with
      | none =>
          rw [hstep] at h
          simp only [Option.bind_eq_bind, Option.none_bind] at h
          exact absurd h (by simp)
      | some mid =>
          rw [hstep] at h
          simp only [Option.bind_eq_bind, Option.some_bind] at h
          obtain ⟨hlen1, hframe1⟩ := applyToColumn_frame t c g mid hstep
          obtain ⟨hlen2, hframe2⟩ := ih mid res h
          refine ⟨by omega, fun j hj hj2 hne => ?_⟩
          have hmid : mid.get ⟨j, by omega⟩ = t.get ⟨j, hj⟩ :=
            hframe1 j hj (by omega) (hne c (by simp))
          have hres : res.get ⟨j, hj2⟩ = mid.get ⟨j, by omega⟩ := by
            apply hframe2 j (by omega) hj2
            intro d hd
            rw [hmid]
            exact hne d (by simp [hd])
          rw [hres, hmid]


/-- C10 (amended).  A column of the selected parse whose (already
normalized) header is not a key of `ALIASES` — hence in particular not one
of the six canonical field names, which are all keys — passes through the
rename, numeric-coercion and trimming steps untouched: whenever `load_data`
returns a table, that table holds the column at the same position with the
same name and the very same cells. -/
theorem c10_unmapped_passthrough (f : File) (e : Encoding) (s : Char)
    (d u : Table) (hdet : detect f = some (e, s, d))
    (hload : load_data f = LoadOutcome.table u)
    (i : ℕ) (hi : i < d.length)
    (halias : List.lookup (d.get ⟨i, hi⟩).name ALIASES = none) :
    u.length = d.length ∧
    ∀ hi2 : i < u.length, u.get ⟨i, hi2⟩ = d.get ⟨i, hi⟩ := by
  -- extract postProcess d = some u
  rw [load_data, hdet] at hload
  change (match postProcess d with
    | some t => LoadOutcome.table t
    | none => LoadOutcome.exception) = LoadOutcome.table u at hload
  have hpp : postProcess d = some u := by
    cases hp : postProcess d with
    | none => rw [hp] at hload; exact absurd hload (by simp)
    | some u2 =>
        rw [hp] at hload
        simp only [LoadOutcome.table.injEq] at hload
        rw [hload]
  rw [postProcess] at hpp
  cases hn : numericCols.foldlM
      (fun acc c => applyToColumn acc c coerceColumn) (renameColumns d) with
  | none => rw [hn] at hpp; exact absurd hpp (by simp)
  | some t2 =>
      rw [hn] at hpp
      simp only [Option.bind_eq_bind, Option.some_bind] at hpp
      -- the column at index i survives renaming unchanged
      have hrlen : (renameColumns d).length = d.length := by
        simp [renameColumns]
      have hrget : (renameColumns d).get ⟨i, by omega⟩ = d.get ⟨i, hi⟩ := by
        simp only [renameColumns, List.get_map]
        rw [show aliasResolve (d.get ⟨i, hi⟩).name = (d.get ⟨i, hi⟩).name by
          rw [aliasResolve, halias]]
      have hname_ne : ∀ c ∈ numericCols ++ textCols, (d.get ⟨i, hi⟩).name ≠ c := by
        intro c hc he
        rw [he] at halias
        fin_cases hc <;> exact absurd halias (by decide)
      obtain ⟨hlen1, hframe1⟩ := foldApply_frame numericCols coerceColumn
        (renameColumns d) t2 hn
      obtain ⟨hlen2, hframe2⟩ := foldApply_frame textCols trimColumn t2 u hpp
      have hlen : u.length = d.length := by omega
      refine ⟨hlen, fun hi2 => ?_⟩
      have h1 : t2.get ⟨i, by omega⟩ = d.get ⟨i, hi⟩ := by
        rw [← hrget]
        apply hframe1 i (by omega) (by omega)
        intro c hc
        rw [hrget]
        exact hname_ne c (by simp [hc])
      rw [← h1]
      apply hframe2 i (by omega) hi2
      intro c hc
      rw [h1]
      exact hname_ne c (by simp [hc])


/-- Witness for `c10_unmapped_passthrough`: on `"foo,sales\nabc,2"` the
unmapped `foo` column comes back untouched while its neighbour is
coerced. -/
theorem c10_unmapped_passthrough_witness :
    load_data (asciiFile "foo,sales\nabc,2") =
      LoadOutcome.table [⟨"foo", [Cell.str "abc"]⟩, ⟨"sales", [Cell.num 2]⟩] ∧
    ([⟨"foo", [Cell.str "abc"]⟩, ⟨"sales", [Cell.num 2]⟩] : Table).get
        ⟨0, by decide⟩ =
      ([⟨"foo", [Cell.str "abc"]⟩, ⟨"sales", [Cell.str "2"]⟩] : Table).get
        ⟨0, by decide⟩ := by
  have h := c10_unmapped_passthrough (asciiFile "foo,sales\nabc,2")
    Encoding.utf8 ','
    [⟨"foo", [Cell.str "abc"]⟩, ⟨"sales", [Cell.str "2"]⟩]
    [⟨"foo", [Cell.str "abc"]⟩, ⟨"sales", [Cell.num 2]⟩]
    rfl rfl 0 (by decide) (by decide)
  exact ⟨rfl, h.2 (by decide)⟩



/-! ### Delimiter robustness: serialization round trip -/

theorem intercalate_char_nil {α : Type} (x : α) :
    List.intercalate [x] ([] : List (List α)) = [] := by
  simp [List.intercalate]

theorem intercalate_char_single {α : Type} (x : α) (a : List α) :
    List.intercalate [x] [a] = a := by
  simp [List.intercalate]

theorem intercalate_char_cons {α : Type} (x : α) (a b : List α)
    (l : List (List α)) :
    List.intercalate [x] (a :: b :: l) = a ++ x :: List.intercalate [x] (b :: l) := by
  simp [List.intercalate, List.intersperse]

theorem mem_intercalate_char {α : Type} (x : α) :
    ∀ (ls : List (List α)) (c : α), c ∈ List.intercalate [x] ls →
      c = x ∨ ∃ l ∈ ls, c ∈ l := by
  intro ls
  induction ls with
  | nil =>
      intro c hc
      rw [intercalate_char_nil] at hc
      exact absurd hc (List.not_mem_nil c)
  | cons a l ih =>
      intro c hc
      cases l with
      | nil =>
          rw [intercalate_char_single] at hc
          exact Or.inr ⟨a, by simp, hc⟩
      | cons b l2 =>
          rw [intercalate_char_cons] at hc
          rcases List.mem_append.mp hc with h | h
          · exact Or.inr ⟨a, by simp, h⟩
          · rcases List.mem_cons.mp h with h2 | h2
            · exact Or.inl h2
            · rcases ih c h2 with h3 | ⟨l3, hl3, hcl3⟩
              · exact Or.inl h3
              · exact Or.inr ⟨l3, by simp [hl3], hcl3⟩

theorem intercalate_char_ne_nil {α : Type} (x : α) (a b : List α)
    (l : List (List α)) : List.intercalate [x] (a :: b :: l) ≠ [] := by
  rw [intercalate_char_cons]
  simp

theorem serializeLine_not_mem (sep c : Char) (fields : List String)
    (hc : c ≠ sep) (hf : ∀ s ∈ fields, c ∉ s.toList) :
    c ∉ serializeLine sep fields := by
  intro hmem
  rcases mem_intercalate_char sep _ c hmem with h | ⟨l, hl, hcl⟩
  · exact hc h
  · obtain ⟨s, hs, rfl⟩ := List.mem_map.mp hl
    exact hf s hs hcl

theorem serializeLine_ne_nil (sep : Char) (fields : List String)
    (h2 : 2 ≤ fields.length) : serializeLine sep fields ≠ [] := by
  match fields, h2 with
  | a :: b :: l, _ =>
      show List.intercalate [sep] ((a :: b :: l).map String.toList) ≠ []
      rw [List.map_cons, List.map_cons]
      exact intercalate_char_ne_nil sep _ _ _

theorem serializeLine_splitOn (sep : Char) (fields : List String)
    (hne : fields ≠ []) (hf : ∀ s ∈ fields, sep ∉ s.toList) :
    (serializeLine sep fields).splitOn sep = fields.map String.toList := by
  apply List.splitOn_intercalate
  · intro l hl
    obtain ⟨s, hs, rfl⟩ := List.mem_map.mp hl
    exact hf s hs
  · simp [hne]


theorem serialize_lines (T : LTable) (sep : Char) (hT : T.Clean)
    (hsepNL : sep ≠ '\n') :
    ((serialize T sep).toList.splitOn '\n').filter (fun l => !l.isEmpty) =
      (T.names :: T.rows).map (serializeLine sep) := by
  obtain ⟨h2, hrect, hnames, hcells⟩ := hT
  have hx : ∀ l ∈ (T.names :: T.rows).map (serializeLine sep), '\n' ∉ l := by
    intro l hl
    obtain ⟨fs, hfs, rfl⟩ := List.mem_map.mp hl
    apply serializeLine_not_mem sep '\n' fs (Ne.symm hsepNL)
    intro s hs hmem
    rcases List.mem_cons.mp hfs with h | h
    · have hc := hnames s (h ▸ hs) '\n' hmem
      exact absurd rfl hc.2.2.2.2.1
    · have hc := hcells fs h s hs '\n' hmem
      exact absurd rfl hc.2.2.2.2.1
  have hls : (T.names :: T.rows).map (serializeLine sep) ≠ [] := by simp
  have h1 : (serialize T sep).toList =
      List.intercalate ['\n'] ((T.names :: T.rows).map (serializeLine sep)) := rfl
  rw [h1, List.splitOn_intercalate _ '\n' hx hls]
  rw [List.filter_eq_self]
  intro l hl
  obtain ⟨fs, hfs, rfl⟩ := List.mem_map.mp hl
  have hlen2 : 2 ≤ fs.length := by
    rcases List.mem_cons.mp hfs with h | h
    · rw [h]
      exact h2
    · rw [hrect fs h]
      exact h2
  have hnn := serializeLine_ne_nil sep fs hlen2
  simpa using hnn


theorem clean_not_mem_sep (T : LTable) (hT : T.Clean) (sep : Char)
    (hsep : sep = ',' ∨ sep = ';' ∨ sep = '\t' ∨ sep = '|') :
    (∀ s ∈ T.names, sep ∉ s.toList) ∧
    (∀ r ∈ T.rows, ∀ s ∈ r, sep ∉ s.toList) := by
  obtain ⟨h2, hrect, hnames, hcells⟩ := hT
  constructor
  · intro s hs hmem
    have hc := hnames s hs sep hmem
    rcases hsep with h | h | h | h <;> subst h
    · exact absurd rfl hc.1
    · exact absurd rfl hc.2.1
    · exact absurd rfl hc.2.2.1
    · exact absurd rfl hc.2.2.2.1
  · intro r hr s hs hmem
    have hc := hcells r hr s hs sep hmem
    rcases hsep with h | h | h | h <;> subst h
    · exact absurd rfl hc.1
    · exact absurd rfl hc.2.1
    · exact absurd rfl hc.2.2.1
    · exact absurd rfl hc.2.2.2.1

theorem read_csv_of_lines (content : String) (sep : Char) (header : List Char)
    (body : List (List Char))
    (h : (content.toList.splitOn '\n').filter (fun l => !l.isEmpty) =
      header :: body) :
    read_csv content sep =
      some ((((header.splitOn sep).map (fun f => String.mk f)).mapIdx
        (fun j nm =>
          { name := nm,
            cells := ((body.map (fun r => (r.splitOn sep).map parseField)).filter
              (fun r => decide (r.length ≤
                ((header.splitOn sep).map (fun f => String.mk f)).length))).map
                  (fun r => r.getD j Cell.na) }))) := by
  unfold read_csv
  rw [h]

/-- Parsing a clean logical table's serialization with the delimiter it was
serialized with recovers exactly the table. -/
theorem read_csv_serialize (T : LTable) (sep : Char) (hT : T.Clean)
    (hsep : sep = ',' ∨ sep = ';' ∨ sep = '\t' ∨ sep = '|') :
    read_csv (serialize T sep) sep = some T.asTable := by
  have hsepNL : sep ≠ '\n' := by
    rcases hsep with h | h | h | h <;> subst h <;> decide
  obtain ⟨hsfree_names, hsfree_rows⟩ := clean_not_mem_sep T hT sep hsep
  obtain ⟨h2, hrect, hnames, hcells⟩ := hT
  have hlines := serialize_lines T sep ⟨h2, hrect, hnames, hcells⟩ hsepNL
  rw [List.map_cons] at hlines
  rw [read_csv_of_lines (serialize T sep) sep _ _ hlines]
  have hnm : ((serializeLine sep T.names).splitOn sep).map
      (fun f => String.mk f) = T.names := by
    rw [serializeLine_splitOn sep T.names
      (by intro h; rw [h] at h2; simp at h2) hsfree_names]
    rw [List.map_map]
    have hpt : ∀ s ∈ T.names, ((fun f => String.mk f) ∘ String.toList) s = id s := by
      intro s hs
      show String.mk s.toList = s
      exact mk_toList s
    rw [List.map_congr_left hpt, List.map_id]
  have hrows2 : (((T.rows.map (serializeLine sep)).map
      (fun r => (r.splitOn sep).map parseField)).filter
        (fun r => decide (r.length ≤ T.names.length))) =
      T.rows.map (fun r => r.map (fun s => parseField s.toList)) := by
    rw [List.map_map]
    have hcong : ∀ r ∈ T.rows,
        ((fun r => (r.splitOn sep).map parseField) ∘ serializeLine sep) r =
          r.map (fun s => parseField s.toList) := by
      intro r hr
      show ((serializeLine sep r).splitOn sep).map parseField = _
      have hrne : r ≠ [] := by
        intro h
        have hl := hrect r hr
        rw [h] at hl
        simp at hl
        omega
      rw [serializeLine_splitOn sep r hrne (hsfree_rows r hr), List.map_map]
      rfl
    rw [List.map_congr_left hcong, List.filter_eq_self]
    intro a ha
    obtain ⟨r, hr, rfl⟩ := List.mem_map.mp ha
    simp [hrect r hr]
  simp only [hnm, hrows2]
  refine congrArg some ?_
  show T.names.mapIdx _ = T.names.mapIdx _
  refine congrArg (fun g => List.mapIdx g T.names) ?_
  funext j nm
  refine congrArg (Column.mk nm) ?_
  rw [List.map_map]
  rfl

/-- Parsing the semicolon serialization of a clean logical table with the
comma delimiter yields a single-column table: the header line contains no
comma. -/
theorem read_csv_other_sep (T : LTable) (hT : T.Clean) :
    ∀ t, read_csv (serialize T ';') ',' = some t → t.length = 1 := by
  intro t ht
  have hlines := serialize_lines T ';' hT (by decide)
  rw [List.map_cons] at hlines
  rw [read_csv_of_lines (serialize T ';') ',' _ _ hlines] at ht
  have hnc : ',' ∉ serializeLine ';' T.names := by
    apply serializeLine_not_mem ';' ',' T.names (by decide)
    intro s hs hmem
    exact absurd rfl ((hT.2.2.1 s hs) ',' hmem).1
  have hsplit : (serializeLine ';' T.names).splitOn ',' =
      [serializeLine ';' T.names] := by
    have hspl := List.splitOn_intercalate [serializeLine ';' T.names] ','
      (by
        intro l hl
        simp only [List.mem_singleton] at hl
        rw [hl]
        exact hnc)
      (by simp)
    rw [intercalate_char_single] at hspl
    exact hspl
  rw [hsplit] at ht
  simp only [List.map_cons, List.map_nil, Option.some.injEq] at ht
  rw [← ht]
  simp

theorem asTable_length (T : LTable) : (T.asTable).length = T.names.length := by
  simp [LTable.asTable]

theorem tryPair_of_parse (f : File) (enc : Encoding) (sep : Char)
    (content : String) (t : Table)
    (hdec : f.decoded enc = some content) (hcsv : read_csv content sep = some t)
    (hlen : 1 < t.length) :
    tryPair f enc sep = some (normTable t) := by
  unfold tryPair
  rw [hdec]
  show (match read_csv content sep with
    | none => none
    | some t => if 1 < t.length then some (normTable t) else none) =
      some (normTable t)
  rw [hcsv]
  show (if 1 < t.length then some (normTable t) else none) = some (normTable t)
  rw [if_pos hlen]

theorem tryPair_reject (f : File) (enc : Encoding) (sep : Char)
    (content : String)
    (hdec : f.decoded enc = some content)
    (hsmall : ∀ t, read_csv content sep = some t → t.length = 1) :
    tryPair f enc sep = none := by
  unfold tryPair
  rw [hdec]
  show (match read_csv content sep with
    | none => none
    | some t => if 1 < t.length then some (normTable t) else none) = none
  cases hc : read_csv content sep with
  | none => rfl
  | some t =>
      have hl1 := hsmall t hc
      show (if 1 < t.length then some (normTable t) else none) = none
      rw [if_neg (by omega)]

/-- C7 (amended).  For every clean logical table — at least two columns,
rectangular, all headers and cells free of the four candidate delimiters,
line breaks and quotes — serialized once with commas and once with
semicolons, the detector selects (utf-8, comma) for the first file and
(utf-8, semicolon) for the second, recovers the same normalized table from
both, and `load_data` returns identical results for the two files. -/
theorem c7_delimiter_robustness (T : LTable) (hT : T.Clean) (f1 f2 : File)
    (h1 : f1.decoded Encoding.utf8 = some (serialize T ','))
    (h2 : f2.decoded Encoding.utf8 = some (serialize T ';')) :
    detect f1 = some (Encoding.utf8, ',', normTable T.asTable) ∧
    detect f2 = some (Encoding.utf8, ';', normTable T.asTable) ∧
    load_data f1 = load_data f2 := by
  have hlen : 1 < (T.asTable).length := by
    rw [asTable_length]
    have h2c := hT.1
    omega
  have htp1 := tryPair_of_parse f1 Encoding.utf8 ',' _ _ h1
    (read_csv_serialize T ',' hT (Or.inl rfl)) hlen
  have htp2a : tryPair f2 Encoding.utf8 ',' = none :=
    tryPair_reject f2 Encoding.utf8 ',' _ h2 (read_csv_other_sep T hT)
  have htp2b := tryPair_of_parse f2 Encoding.utf8 ';' _ _ h2
    (read_csv_serialize T ';' hT (Or.inr (Or.inl rfl))) hlen
  have hd1 : detect f1 = some (Encoding.utf8, ',', normTable T.asTable) := by
    simp only [detect, encodings_to_try, seps_to_try, List.findSome?_cons,
      htp1, Option.map_some']
  have hd2 : detect f2 = some (Encoding.utf8, ';', normTable T.asTable) := by
    simp only [detect, encodings_to_try, seps_to_try, List.findSome?_cons,
      htp2a, htp2b, Option.map_some', Option.map_none']
  refine ⟨hd1, hd2, ?_⟩
  rw [load_data, load_data, hd1, hd2]


/-- Witness for `c7_delimiter_robustness` at a concrete two-column logical
table with an empty cell. -/
theorem c7_delimiter_robustness_witness :
    serialize ⟨["sales", "region x"], [["1", "n"], ["2", ""]]⟩ ',' =
      "sales,region x\n1,n\n2," ∧
    serialize ⟨["sales", "region x"], [["1", "n"], ["2", ""]]⟩ ';' =
      "sales;region x\n1;n\n2;" ∧
    (detect (asciiFile (serialize ⟨["sales", "region x"], [["1", "n"], ["2", ""]]⟩ ',')) =
      some (Encoding.utf8, ',',
        normTable (LTable.asTable ⟨["sales", "region x"], [["1", "n"], ["2", ""]]⟩)) ∧
    detect (asciiFile (serialize ⟨["sales", "region x"], [["1", "n"], ["2", ""]]⟩ ';')) =
      some (Encoding.utf8, ';',
        normTable (LTable.asTable ⟨["sales", "region x"], [["1", "n"], ["2", ""]]⟩)) ∧
    load_data (asciiFile (serialize ⟨["sales", "region x"], [["1", "n"], ["2", ""]]⟩ ',')) =
      load_data (asciiFile (serialize ⟨["sales", "region x"], [["1", "n"], ["2", ""]]⟩ ';'))) :=
  ⟨rfl, rfl,
    c7_delimiter_robustness ⟨["sales", "region x"], [["1", "n"], ["2", ""]]⟩
      (by decide)
      (asciiFile (serialize ⟨["sales", "region x"], [["1", "n"], ["2", ""]]⟩ ','))
      (asciiFile (serialize ⟨["sales", "region x"], [["1", "n"], ["2", ""]]⟩ ';'))
      rfl rfl⟩


end SupermarketLoader
